import Mathlib

/-!
Verification of the algorithmic core of the FunASR excerpt:
the exported CIF (continuous integrate-and-fire) boundary predictor
(`funasr/export/models/predictor/cif.py`) and the punctuation model's
likelihood scorer (`funasr/punctuation/espnet_model.py`).

Tensors are embedded as nested lists of rationals: a `(batch, time, hidden)`
tensor is a `List (List (List ℚ))`, a `(batch, time)` tensor a
`List (List ℚ)`.  The batch-vectorized PyTorch time loop acts on each batch
element independently, so it is embedded as a per-row state-passing loop;
the fire and frame traces appended inside the Python loop are the values at
append time (the subsequent `torch.where` rebinds rather than mutates the
appended tensors), which is exactly what the functional embedding records.
Fallible tensor operations (`torch.stack` on an empty list, `view`,
in-place `masked_fill_` with a non-broadcastable mask, library calls on
mismatched shapes) are embedded as `Option`-returning functions that yield
`none` where PyTorch raises.
-/

/-- The zero vector of dimension `d` (`torch.zeros`). -/
def zeroVec (d : ℕ) : List ℚ := List.replicate d 0

/-- Elementwise addition of two vectors of equal length. -/
def vadd (u v : List ℚ) : List ℚ := List.zipWith (· + ·) u v

/-- Scalar multiplication of a vector. -/
def smul (c : ℚ) (v : List ℚ) : List ℚ := v.map (fun x => c * x)

/-- Loop state of the `cif` time loop: the `integrate` accumulator and the
`frame` accumulator of one batch element. -/
structure CifState where
  integrate : ℚ
  frame : List ℚ
deriving DecidableEq

/-- One iteration of the `for t in range(len_time)` loop body of `cif`
(cif.py lines 139-159), for one batch element.  Returns the next state, the
value appended to `list_fires` (post-add, pre-reset accumulator) and the
value appended to `list_frames` (post-contribution frame accumulator).
Note the code subtracts the constant `1` (`torch.ones`) on a firing, not the
`threshold` parameter, and uses `1 - integrate` as the completion mass. -/
def cifStep (threshold : ℚ) (s : CifState) (a : ℚ) (h : List ℚ) :
    CifState × ℚ × List ℚ :=
  let distribution_completion := 1 - s.integrate
  let integrate := s.integrate + a
  let fire_place := threshold ≤ integrate
  let integrate2 := if fire_place then integrate - 1 else integrate
  let cur := if fire_place then distribution_completion else a
  let remainds := a - cur
  let frame2 := vadd s.frame (smul cur h)
  let frame3 := if fire_place then smul remainds h else frame2
  (⟨integrate2, frame3⟩, integrate, frame2)

/-- The full time loop of `cif` for one batch element: returns the fire
trace, the recorded frame history, and the final loop state.  The input is
the list of `(alphas[:, t], hidden[:, t, :])` pairs of that element. -/
def cifLoop (threshold : ℚ) (s : CifState) :
    List (ℚ × List ℚ) → List ℚ × List (List ℚ) × CifState
  | [] => ([], [], s)
  | (a, h) :: rest =>
    let out := cifStep threshold s a h
    let tail := cifLoop threshold out.1 rest
    (out.2.1 :: tail.1, out.2.2 :: tail.2.1, tail.2.2)

/-- `hidden_size`, read off the first frame vector as `hidden.size()` does. -/
def cifDim (hidden : List (List (List ℚ))) : ℕ :=
  ((hidden.headD []).headD []).length

/-- Fire trace of one batch element (`fires[b]` in cif.py line 161). -/
def cifFiresRow (threshold : ℚ) (d : ℕ) (alphasRow : List ℚ)
    (hiddenRow : List (List ℚ)) : List ℚ :=
  (cifLoop threshold ⟨0, zeroVec d⟩ (List.zip alphasRow hiddenRow)).1

/-- Recorded frame history of one batch element (`frames[b]`, line 162). -/
def cifFramesRow (threshold : ℚ) (d : ℕ) (alphasRow : List ℚ)
    (hiddenRow : List (List ℚ)) : List (List ℚ) :=
  (cifLoop threshold ⟨0, zeroVec d⟩ (List.zip alphasRow hiddenRow)).2.1

/-- `frames[b, fire_idxs[b]]` (cif.py line 168): the recorded frame-history
vectors at the positions whose fire value reaches the threshold, in time
order. -/
def selectFires (threshold : ℚ) (fires : List ℚ) (frames : List (List ℚ)) :
    List (List ℚ) :=
  (List.zip fires frames).filterMap
    (fun p => if threshold ≤ p.1 then some p.2 else none)

/-- The stacked fire trace `fires` returned by `cif` (shape `(batch, time)`). -/
def cifFires (hidden : List (List (List ℚ))) (alphas : List (List ℚ))
    (threshold : ℚ) : List (List ℚ) :=
  List.zipWith (fun ab hb => cifFiresRow threshold (cifDim hidden) ab hb)
    alphas hidden

/-- The per-element selected token embeddings before padding
(`frame_fire` of cif.py line 168 for each `b`). -/
def cifSel (hidden : List (List (List ℚ))) (alphas : List (List ℚ))
    (threshold : ℚ) : List (List (List ℚ)) :=
  List.zipWith
    (fun ab hb =>
      selectFires threshold (cifFiresRow threshold (cifDim hidden) ab hb)
        (cifFramesRow threshold (cifDim hidden) ab hb))
    alphas hidden

/-- `max_label_len` after the write loop of cif.py lines 166-173: it starts
at batch element 0's firing count and is raised to every later element's
count, i.e. it is the maximum selected length over the batch. -/
def cifMaxLen (hidden : List (List (List ℚ))) (alphas : List (List ℚ))
    (threshold : ℚ) : ℕ :=
  ((cifSel hidden alphas threshold).map List.length).foldl Nat.max 0

/-- `frame_fires` returned by `cif` (line 174): the selected vectors written
into a zero tensor and truncated to `max_label_len`; each selected length is
at most the time length, so row `b` is its selection right-padded with zero
vectors to `max_label_len`. -/
def cifEmb (hidden : List (List (List ℚ))) (alphas : List (List ℚ))
    (threshold : ℚ) : List (List (List ℚ)) :=
  (cifSel hidden alphas threshold).map
    (fun s =>
      s ++ List.replicate (cifMaxLen hidden alphas threshold - s.length)
        (zeroVec (cifDim hidden)))

/-- `cif(hidden, alphas, threshold)` (cif.py lines 127-175).  For an empty
batch, `frames[0, fire_idxs[0]]` raises; for a zero time length,
`torch.stack` of the empty `list_fires` raises; both are embedded as
`none`. -/
def cif (hidden : List (List (List ℚ))) (alphas : List (List ℚ))
    (threshold : ℚ) :
    Option (List (List (List ℚ)) × List (List ℚ)) :=
  match hidden with
  | [] => none
  | h0 :: _ =>
    if h0.length = 0 then none
    else some (cifEmb hidden alphas threshold, cifFires hidden alphas threshold)

/-- `CifPredictorV2.tail_process_fn` (cif.py lines 60-77) with the module's
`tail_threshold` as first argument.  `mask_2 - mask_1` is the boundary
indicator of each row; the source then *concatenates* the whole
`(b, t+1)`-shaped scaled indicator onto the `(b, t)`-shaped `alphas`
(`torch.cat([alphas, tail_threshold], dim=1)`), while the hidden frames get
a single zero frame appended. -/
def tail_process_fn (tail_threshold : ℚ) (hidden : List (List (List ℚ)))
    (alphas : List (List ℚ)) (mask : List (List ℚ)) :
    List (List (List ℚ)) × List (List ℚ) × List ℚ :=
  let d := cifDim hidden
  let mask_1 := mask.map (fun row => row ++ [0])
  let mask_2 := mask.map (fun row => 1 :: row)
  let maskDiff := List.zipWith
    (fun r2 r1 => List.zipWith (fun x y => x - y) r2 r1) mask_2 mask_1
  let tail := maskDiff.map (fun row => row.map (fun v => v * tail_threshold))
  let alphas2 := List.zipWith (fun a t => a ++ t) alphas tail
  let hidden2 := hidden.map (fun hb => hb ++ [zeroVec d])
  let token_num := alphas2.map (fun row => row.sum)
  let token_num_floor := token_num.map (fun q => ((⌊q⌋ : ℤ) : ℚ))
  (hidden2, alphas2, token_num_floor)

/-! ## Basic list access lemmas used throughout -/

theorem getD_eq_getElem {α : Type} (l : List α) (n : ℕ) (d : α)
    (h : n < l.length) : l.getD n d = l[n] := by
  induction l generalizing n with
  | nil => simp at h
  | cons a t ih =>
    cases n with
    | zero => rfl
    | succ m => simpa using ih m (by simpa using h)

theorem getD_append_left {α : Type} (l1 l2 : List α) (n : ℕ) (d : α)
    (h : n < l1.length) : (l1 ++ l2).getD n d = l1.getD n d := by
  induction l1 generalizing n with
  | nil => simp at h
  | cons a t ih =>
    cases n with
    | zero => rfl
    | succ m => simpa using ih m (by simpa using h)

theorem getD_append_right {α : Type} (l1 l2 : List α) (n : ℕ) (d : α) :
    (l1 ++ l2).getD (l1.length + n) d = l2.getD n d := by
  induction l1 with
  | nil => simp
  | cons a t ih => simpa [Nat.succ_add] using ih

theorem getD_take {α : Type} (l : List α) (n j : ℕ) (d : α) (h : j < n) :
    (l.take n).getD j d = l.getD j d := by
  induction l generalizing n j with
  | nil => simp
  | cons a t ih =>
    cases n with
    | zero => omega
    | succ m =>
      cases j with
      | zero => rfl
      | succ i => simpa using ih m i (by omega)

theorem getD_drop {α : Type} (l : List α) (m j : ℕ) (d : α) :
    (l.drop m).getD j d = l.getD (m + j) d := by
  induction l generalizing m with
  | nil => simp
  | cons a t ih =>
    cases m with
    | zero => simp
    | succ k => simpa [Nat.succ_add] using ih k

theorem getD_map {α β : Type} (f : α → β) (l : List α) (n : ℕ) (d : α)
    (h : n < l.length) : (l.map f).getD n (f d) = f (l.getD n d) := by
  induction l generalizing n with
  | nil => simp at h
  | cons a t ih =>
    cases n with
    | zero => rfl
    | succ m => simpa using ih m (by simpa using h)

theorem getD_zipWith {α β γ : Type} (f : α → β → γ) (l1 : List α)
    (l2 : List β) (n : ℕ) (d1 : α) (d2 : β) (d3 : γ)
    (h1 : n < l1.length) (h2 : n < l2.length) :
    (List.zipWith f l1 l2).getD n d3 = f (l1.getD n d1) (l2.getD n d2) := by
  induction l1 generalizing l2 n with
  | nil => simp at h1
  | cons a t ih =>
    cases l2 with
    | nil => simp at h2
    | cons b u =>
      cases n with
      | zero => rfl
      | succ m => simpa using ih u m (by simpa using h1) (by simpa using h2)

theorem getD_range (n i : ℕ) (d : ℕ) (h : i < n) :
    (List.range n).getD i d = i := by
  rw [getD_eq_getElem _ _ _ (by simpa using h)]
  simp

theorem getD_replicate {α : Type} (n i : ℕ) (a d : α) (h : i < n) :
    (List.replicate n a).getD i d = a := by
  induction n generalizing i with
  | zero => omega
  | succ m ih =>
    cases i with
    | zero => rfl
    | succ j =>
      rw [List.replicate_succ]
      simpa using ih j (by omega)

theorem getD_mem {α : Type} (l : List α) (n : ℕ) (d : α) (h : n < l.length) :
    l.getD n d ∈ l := by
  rw [getD_eq_getElem _ _ _ h]
  exact List.getElem_mem h

theorem flatten_length_uniform {α : Type} (xss : List (List α)) (w : ℕ)
    (hw : ∀ xs ∈ xss, xs.length = w) :
    xss.flatten.length = xss.length * w := by
  induction xss with
  | nil => simp
  | cons xs t ih =>
    have hx : xs.length = w := hw xs (by simp)
    have ht : t.flatten.length = t.length * w :=
      ih (fun ys hy => hw ys (by simp [hy]))
    simp [hx, ht, Nat.succ_mul, Nat.add_comm]

theorem flatten_getD_uniform {α : Type} (xss : List (List α)) (w b j : ℕ)
    (d : α) (hw : ∀ xs ∈ xss, xs.length = w) (hb : b < xss.length)
    (hj : j < w) :
    xss.flatten.getD (b * w + j) d = (xss.getD b []).getD j d := by
  induction xss generalizing b with
  | nil => simp at hb
  | cons xs t ih =>
    cases b with
    | zero =>
      have hx : xs.length = w := hw xs (by simp)
      simpa using getD_append_left xs t.flatten j d (by omega)
    | succ m =>
      have hx : xs.length = w := hw xs (by simp)
      have key : (m + 1) * w + j = xs.length + (m * w + j) := by
        rw [hx]; ring
      rw [List.flatten_cons, key, getD_append_right]
      exact ih m (fun ys hy => hw ys (by simp [hy])) (by simpa using hb)

theorem le_foldl_max_init (l : List ℕ) (a : ℕ) : a ≤ l.foldl Nat.max a := by
  induction l generalizing a with
  | nil => simp
  | cons c u ih => exact le_trans (Nat.le_max_left a c) (ih (Nat.max a c))

theorem foldl_max_le_of_mem (l : List ℕ) (a x : ℕ) (hx : x ∈ l) :
    x ≤ l.foldl Nat.max a := by
  induction l generalizing a with
  | nil => simp at hx
  | cons b t ih =>
    rcases List.mem_cons.mp hx with h | h
    · subst h
      exact le_trans (Nat.le_max_right a x) (le_foldl_max_init t (Nat.max a x))
    · exact ih (Nat.max a b) h

theorem foldl_max_eq_zero (l : List ℕ) (hl : ∀ x ∈ l, x = 0) :
    l.foldl Nat.max 0 = 0 := by
  induction l with
  | nil => rfl
  | cons a t ih =>
    have ha : a = 0 := hl a (by simp)
    simp [ha, ih (fun x hx => hl x (by simp [hx]))]

/-! ## Structural lemmas about the cif loop -/

theorem vadd_length (u v : List ℚ) :
    (vadd u v).length = Nat.min u.length v.length := by
  simp [vadd]

theorem smul_length (c : ℚ) (v : List ℚ) : (smul c v).length = v.length := by
  simp [smul]

theorem vadd_zeroVec (v : List ℚ) : vadd (zeroVec v.length) v = v := by
  induction v with
  | nil => rfl
  | cons x t ih =>
    simp only [zeroVec, List.length_cons, List.replicate_succ] at *
    simp [vadd, List.zipWith_cons_cons] at *
    exact ih

theorem smul_one (v : List ℚ) : smul 1 v = v := by
  simp [smul]

theorem vadd_smul_zero (u v : List ℚ) (h : u.length = v.length) :
    vadd (smul 0 u) v = v := by
  induction u generalizing v with
  | nil =>
    cases v with
    | nil => rfl
    | cons y s => simp at h
  | cons x t ih =>
    cases v with
    | nil => simp at h
    | cons y s =>
      have ht : t.length = s.length := by simpa using h
      calc vadd (smul 0 (x :: t)) (y :: s)
          = (0 * x + y) :: vadd (smul 0 t) s := rfl
        _ = y :: s := by rw [ih s ht]; norm_num

theorem cifLoop_fires_length (threshold : ℚ) (s : CifState)
    (l : List (ℚ × List ℚ)) : (cifLoop threshold s l).1.length = l.length := by
  induction l generalizing s with
  | nil => rfl
  | cons p rest ih =>
    obtain ⟨a, h⟩ := p
    simp [cifLoop, ih]

theorem cifLoop_frames_length (threshold : ℚ) (s : CifState)
    (l : List (ℚ × List ℚ)) :
    (cifLoop threshold s l).2.1.length = l.length := by
  induction l generalizing s with
  | nil => rfl
  | cons p rest ih =>
    obtain ⟨a, h⟩ := p
    simp [cifLoop, ih]

theorem cifLoop_frames_dims (threshold : ℚ) (s : CifState)
    (l : List (ℚ × List ℚ)) (d : ℕ) (hs : s.frame.length = d)
    (hl : ∀ p ∈ l, p.2.length = d) :
    ∀ fr ∈ (cifLoop threshold s l).2.1, fr.length = d := by
  induction l generalizing s with
  | nil => simp [cifLoop]
  | cons p rest ih =>
    obtain ⟨a, h⟩ := p
    have hh : h.length = d := hl (a, h) (by simp)
    intro fr hfr
    simp only [cifLoop, cifStep] at hfr
    rcases List.mem_cons.mp hfr with hfr | hfr
    · subst hfr
      simp [vadd_length, smul_length, hs, hh]
    · refine ih _ ?_ (fun q hq => hl q (by simp [hq])) fr hfr
      by_cases hfp : threshold ≤ s.integrate + a
      · simp [hfp, smul_length, hh]
      · simp [hfp, vadd_length, smul_length, hs, hh]

theorem cifLoop_fires_getD (threshold : ℚ) (s : CifState)
    (l : List (ℚ × List ℚ)) (t : ℕ) (ht : t < l.length) :
    (cifLoop threshold s l).1.getD t 0 =
      s.integrate + ((l.map Prod.fst).take (t + 1)).sum
        - (((cifLoop threshold s l).1.take t).countP
            (fun v => decide (threshold ≤ v)) : ℚ) := by
  induction l generalizing s t with
  | nil => simp at ht
  | cons p rest ih =>
    obtain ⟨a, h⟩ := p
    cases t with
    | zero =>
      simp [cifLoop, cifStep]
    | succ m =>
      have hm : m < rest.length := by simpa using ht
      simp only [cifLoop, cifStep, List.getD_cons_succ, List.map_cons,
        List.take_succ_cons, List.sum_cons, List.countP_cons]
      rw [ih _ m hm]
      by_cases hfp : threshold ≤ s.integrate + a
      · simp only [hfp, if_true, decide_eq_true_eq]
        push_cast
        ring
      · simp only [hfp, if_false, decide_eq_true_eq]
        push_cast
        ring

theorem selectFires_length (threshold : ℚ) (fires : List ℚ)
    (frames : List (List ℚ)) (h : frames.length = fires.length) :
    (selectFires threshold fires frames).length =
      fires.countP (fun v => decide (threshold ≤ v)) := by
  induction fires generalizing frames with
  | nil => simp [selectFires]
  | cons f t ih =>
    cases frames with
    | nil => simp at h
    | cons fr frs =>
      simp only [selectFires, List.zip_cons_cons, List.filterMap_cons,
        List.countP_cons]
      by_cases hf : threshold ≤ f
      · simp only [hf, if_true, decide_eq_true_eq]
        have := ih frs (by simpa using h)
        simp only [selectFires] at this
        simp [this, hf]
      · simp only [hf, if_false, decide_eq_true_eq]
        have := ih frs (by simpa using h)
        simp only [selectFires] at this
        simp [this, hf]

theorem cifLoop_zero_alphas (threshold : ℚ) (hθ : 0 < threshold)
    (l : List (ℚ × List ℚ)) (s : CifState) (hi : s.integrate = 0)
    (hl : ∀ p ∈ l, p.1 = 0) :
    (cifLoop threshold s l).1 = List.replicate l.length 0 := by
  induction l generalizing s with
  | nil => rfl
  | cons p rest ih =>
    obtain ⟨a, h⟩ := p
    have ha : a = 0 := hl (a, h) (by simp)
    have hs0 : s.integrate + a = 0 := by rw [hi, ha]; ring
    have hnf : ¬ threshold ≤ (0 : ℚ) := not_le.mpr hθ
    simp only [cifLoop, cifStep, List.length_cons, List.replicate_succ, hs0,
      hnf, if_false, List.cons.injEq]
    exact ⟨trivial, ih _ rfl (fun q hq => hl q (by simp [hq]))⟩

theorem cifLoop_cons_fires (threshold : ℚ) (s : CifState) (a : ℚ)
    (h : List ℚ) (l : List (ℚ × List ℚ)) :
    (cifLoop threshold s ((a, h) :: l)).1 =
      (cifStep threshold s a h).2.1 ::
        (cifLoop threshold (cifStep threshold s a h).1 l).1 := rfl

theorem cifLoop_cons_state (threshold : ℚ) (s : CifState) (a : ℚ)
    (h : List ℚ) (l : List (ℚ × List ℚ)) :
    (cifLoop threshold s ((a, h) :: l)).2.2 =
      (cifLoop threshold (cifStep threshold s a h).1 l).2.2 := rfl

theorem cifStep_fire (threshold : ℚ) (s : CifState) (a : ℚ) (h : List ℚ) :
    (cifStep threshold s a h).2.1 = s.integrate + a := rfl

theorem cifStep_integrate (threshold : ℚ) (s : CifState) (a : ℚ)
    (h : List ℚ) :
    (cifStep threshold s a h).1.integrate =
      if threshold ≤ s.integrate + a then s.integrate + a - 1
      else s.integrate + a := rfl

theorem selectFires_of_no_fire (threshold : ℚ) (fires : List ℚ)
    (frames : List (List ℚ)) (h : ∀ v ∈ fires, ¬ threshold ≤ v) :
    selectFires threshold fires frames = [] := by
  induction fires generalizing frames with
  | nil => simp [selectFires]
  | cons f t ih =>
    cases frames with
    | nil => simp [selectFires]
    | cons fr frs =>
      have hf : ¬ threshold ≤ f := h f (by simp)
      have := ih frs (fun v hv => h v (by simp [hv]))
      simp only [selectFires, List.zip_cons_cons, List.filterMap_cons, hf,
        if_false]
      simpa [selectFires] using this

theorem mem_zipWith_getD {α β γ : Type} (f : α → β → γ) (as : List α)
    (bs : List β) (da : α) (db : β) (x : γ)
    (hx : x ∈ List.zipWith f as bs) :
    ∃ i, i < as.length ∧ i < bs.length ∧
      x = f (as.getD i da) (bs.getD i db) := by
  induction as generalizing bs with
  | nil => simp at hx
  | cons a t ih =>
    cases bs with
    | nil => simp at hx
    | cons b u =>
      rcases List.mem_cons.mp hx with h | h
      · exact ⟨0, by simp, by simp, by simpa using h⟩
      · obtain ⟨i, h1, h2, h3⟩ := ih u h
        exact ⟨i + 1, by simpa using h1, by simpa using h2, by simpa using h3⟩

/-- `cif` succeeds exactly on a nonempty batch with a nonzero time length. -/
theorem cif_eq_some (hidden : List (List (List ℚ))) (alphas : List (List ℚ))
    (threshold : ℚ) (T : ℕ) (hne : hidden ≠ [])
    (hT : ∀ r ∈ hidden, r.length = T) (hTpos : 0 < T) :
    cif hidden alphas threshold =
      some (cifEmb hidden alphas threshold,
        cifFires hidden alphas threshold) := by
  cases hidden with
  | nil => exact absurd rfl hne
  | cons h0 hs =>
    have h0T : h0.length = T := hT h0 (by simp)
    have : ¬ h0.length = 0 := by omega
    simp [cif, this]

/-! ## Claim theorems -/

/-- **C1** (code bug): the spec says `tail_process_fn` returns `alphas'` of
shape `(b, t+1)` sharing the time length `t+1` with `hidden'` and carrying
`tail_threshold` exactly at each row's boundary position `L`.  The code
instead concatenates the whole `(b, t+1)`-long scaled boundary indicator
onto the `(b, t)` alphas (`torch.cat([alphas, tail_threshold], dim=1)`
where the upstream implementation pads with one zero column and *adds*),
yielding shape `(b, 2t+1)` and leaving the tail mass at column `t + L`.
Evaluated at `b = 1, t = 2, d = 1`, `tail_threshold = 9/20`, full-length
mask (`L = 2`): the returned alphas row has 5 entries (claim says 3), the
hidden row has 3 frames, the boundary position 2 holds `0`, and the tail
mass sits at column 4; the floored token count is `⌊3/10+2/5+9/20⌋ = 1`. -/
theorem tail_process_fn_shape_mismatch :
    tail_process_fn (9/20) [[[1], [2]]] [[3/10, 2/5]] [[1, 1]] =
      ([[[1], [2], [0]]], [[3/10, 2/5, 0, 0, 9/20]], [1]) ∧
    ((tail_process_fn (9/20) [[[1], [2]]] [[3/10, 2/5]] [[1, 1]]).2.1.getD 0
      []).length = 5 ∧
    ((tail_process_fn (9/20) [[[1], [2]]] [[3/10, 2/5]] [[1, 1]]).1.getD 0
      []).length = 3 ∧
    ((tail_process_fn (9/20) [[[1], [2]]] [[3/10, 2/5]] [[1, 1]]).2.1.getD 0
      []).getD 2 0 = 0 ∧
    ((tail_process_fn (9/20) [[[1], [2]]] [[3/10, 2/5]] [[1, 1]]).2.1.getD 0
      []).getD 4 0 = 9/20 := by
  have h : tail_process_fn (9/20) [[[1], [2]]] [[3/10, 2/5]] [[1, 1]] =
      ([[[1], [2], [0]]], [[3/10, 2/5, 0, 0, 9/20]], [1]) := by
    norm_num [tail_process_fn, cifDim, zeroVec]
  refine ⟨h, ?_, ?_, ?_, ?_⟩ <;> rw [h] <;> norm_num

/-- **C9 counterexample**: for a zero-length time dimension the claim says
`cif` returns an empty token dimension; the code instead reaches
`torch.stack` on the empty `list_fires`, which raises (embedded as
`none`), at the concrete input `B = 1, T = 0`. -/
theorem cif_empty_time_fails :
    cif ([[]] : List (List (List ℚ))) ([[]] : List (List ℚ)) 1 = none := rfl

/-- **C9** (amended): for all-zero alphas with `B ≥ 1` and `T ≥ 1` and a
positive threshold, `cif` returns well-defined degenerate outputs: the
token dimension is empty (row `b` of the embeddings is `[]`) and the fire
trace row `b` is identically zero; the `T = 0` case instead fails
(`cif_empty_time_fails`). -/
theorem cif_all_zero_alphas (hidden : List (List (List ℚ)))
    (alphas : List (List ℚ)) (threshold : ℚ) (B T b : ℕ)
    (hθ : 0 < threshold)
    (hB : hidden.length = B) (hBpos : 0 < B)
    (hT : ∀ r ∈ hidden, r.length = T) (hTpos : 0 < T)
    (hA : alphas.length = B) (hAW : ∀ r ∈ alphas, r.length = T)
    (hz : ∀ r ∈ alphas, ∀ a ∈ r, a = 0)
    (hb : b < B) :
    cif hidden alphas threshold =
      some (cifEmb hidden alphas threshold,
        cifFires hidden alphas threshold) ∧
    (cifEmb hidden alphas threshold).length = B ∧
    (cifEmb hidden alphas threshold).getD b [] = [] ∧
    (cifFires hidden alphas threshold).getD b [] = List.replicate T 0 := by
  have hfrow : ∀ i, i < B →
      cifFiresRow threshold (cifDim hidden) (alphas.getD i [])
        (hidden.getD i []) = List.replicate T 0 := by
    intro i hi
    have hai : alphas.getD i [] ∈ alphas := getD_mem _ _ _ (by omega)
    have hhi : hidden.getD i [] ∈ hidden := getD_mem _ _ _ (by omega)
    have hlen : (List.zip (alphas.getD i []) (hidden.getD i [])).length = T := by
      rw [List.length_zip, hAW _ hai, hT _ hhi]
      exact Nat.min_self T
    rw [cifFiresRow, cifLoop_zero_alphas threshold hθ _ _ rfl
      (fun p hp => hz _ hai p.1 (List.of_mem_zip hp).1), hlen]
  have hselE : ∀ row ∈ cifSel hidden alphas threshold, row = [] := by
    intro row hrow
    obtain ⟨i, hi1, hi2, heq⟩ := mem_zipWith_getD _ alphas hidden [] [] row hrow
    rw [heq, hfrow i (by omega)]
    exact selectFires_of_no_fire _ _ _
      (fun v hv => by
        rw [List.eq_of_mem_replicate hv]
        exact not_le.mpr hθ)
  have hmax : cifMaxLen hidden alphas threshold = 0 := by
    apply foldl_max_eq_zero
    intro x hx
    obtain ⟨row, hrow, hxeq⟩ := List.mem_map.mp hx
    rw [← hxeq, hselE row hrow]
    rfl
  have hsel_len : (cifSel hidden alphas threshold).length = B := by
    simp [cifSel, hA, hB]
  refine ⟨cif_eq_some hidden alphas threshold T
      (by intro hcon; rw [hcon] at hB; simp at hB; omega) hT hTpos, ?_, ?_, ?_⟩
  · simp [cifEmb, hsel_len]
  · have hblen : b < (cifEmb hidden alphas threshold).length := by
      simp [cifEmb, hsel_len]; omega
    have hbsel : b < (cifSel hidden alphas threshold).length := by omega
    have hselb : (cifSel hidden alphas threshold).getD b [] = [] :=
      hselE _ (getD_mem _ _ _ hbsel)
    rw [getD_eq_getElem _ _ _ hblen]
    simp only [cifEmb, List.getElem_map]
    rw [← getD_eq_getElem _ _ [] hbsel, hselb, hmax]
    rfl
  · rw [cifFires, getD_zipWith _ alphas hidden b [] [] [] (by omega) (by omega)]
    exact hfrow b hb

/-- Witness for `cif_all_zero_alphas` at `B = 1`, `T = 2`. -/
theorem cif_all_zero_alphas_witness :
    cif [[[2], [3]]] [[0, 0]] 1 =
      some (cifEmb [[[2], [3]]] [[0, 0]] 1, cifFires [[[2], [3]]] [[0, 0]] 1) ∧
    (cifEmb [[[2], [3]]] [[0, 0]] 1).length = 1 ∧
    (cifEmb [[[2], [3]]] [[0, 0]] 1).getD 0 [] = [] ∧
    (cifFires [[[2], [3]]] [[0, 0]] 1).getD 0 [] = List.replicate 2 0 :=
  cif_all_zero_alphas [[[2], [3]]] [[0, 0]] 1 1 2 0 (by norm_num) rfl
    (by norm_num) (by simp) (by norm_num) rfl (by simp)
    (by intro r hr a ha; simp at hr; subst hr; simpa using ha) (by norm_num)

/-- **C2 counterexample**: the claim asserts that on a firing the
accumulator is reset by subtracting exactly the threshold, giving the
invariant `[0, threshold)` for every positive threshold.  At
`threshold = 1/2` with the single non-negative alpha `1/2` (which fires at
most once per step, since the post-add value `1/2` is below
`2 * threshold`), the code subtracts `1`, leaving the accumulator at
`-1/2`, outside `[0, 1/2)`. -/
theorem cif_integrate_reset_cex :
    (0 : ℚ) < 1/2 ∧ (0 : ℚ) ≤ 1/2 ∧
    (cifLoop (1/2) ⟨0, zeroVec 1⟩ [(1/2, [1])]).1 = [1/2] ∧
    (1 : ℚ)/2 < 2 * (1/2) ∧
    (cifLoop (1/2) ⟨0, zeroVec 1⟩ [(1/2, [1])]).2.2.integrate = -(1/2) ∧
    ¬ (0 : ℚ) ≤ (cifLoop (1/2) ⟨0, zeroVec 1⟩ [(1/2, [1])]).2.2.integrate := by
  norm_num [cifLoop, cifStep]

/-- **C2** (amended): the firing reset subtracts exactly `1` — the
hard-coded unit of the source — rather than the `threshold` parameter, so
the claimed invariant holds in the unit-threshold case: with
`threshold = 1`, non-negative alphas, and at most one firing per step
(every fire-trace value is below `2`), the integrate accumulator stays in
`[0, 1)` after processing any number `n` of frames. -/
theorem cif_integrate_unit_invariant (l : List (ℚ × List ℚ)) (s : CifState)
    (n : ℕ) (ha : ∀ p ∈ l, 0 ≤ p.1)
    (hfire : ∀ v ∈ (cifLoop 1 s l).1, v < 2)
    (h0 : 0 ≤ s.integrate) (h1 : s.integrate < 1) :
    0 ≤ (cifLoop 1 s (l.take n)).2.2.integrate ∧
    (cifLoop 1 s (l.take n)).2.2.integrate < 1 := by
  induction l generalizing s n with
  | nil =>
    simp only [List.take_nil]
    exact ⟨h0, h1⟩
  | cons p rest ih =>
    obtain ⟨a, h⟩ := p
    cases n with
    | zero => exact ⟨h0, h1⟩
    | succ m =>
      rw [List.take_succ_cons, cifLoop_cons_state]
      have haHead : 0 ≤ a := ha (a, h) (by simp)
      have hvHead : s.integrate + a < 2 := by
        have hmem : s.integrate + a ∈ (cifLoop 1 s ((a, h) :: rest)).1 := by
          rw [cifLoop_cons_fires, cifStep_fire]
          exact List.mem_cons_self _ _
        exact hfire _ hmem
      have hint := cifStep_integrate 1 s a h
      refine ih _ m (fun q hq => ha q (by simp [hq])) ?_ ?_ ?_
      · intro v hv
        apply hfire
        rw [cifLoop_cons_fires]
        exact List.mem_cons_of_mem _ hv
      · rw [hint]
        by_cases hf : (1 : ℚ) ≤ s.integrate + a
        · rw [if_pos hf]; linarith
        · rw [if_neg hf]; linarith
      · rw [hint]
        by_cases hf : (1 : ℚ) ≤ s.integrate + a
        · rw [if_pos hf]; linarith
        · rw [if_neg hf]; push_neg at hf; linarith

/-- Witness for `cif_integrate_unit_invariant` on a two-step input with one
firing. -/
theorem cif_integrate_unit_invariant_witness :
    0 ≤ (cifLoop 1 ⟨0, zeroVec 1⟩
        ([((1:ℚ)/2, [1]), (3/4, [2])].take 2)).2.2.integrate ∧
    (cifLoop 1 ⟨0, zeroVec 1⟩
        ([((1:ℚ)/2, [1]), (3/4, [2])].take 2)).2.2.integrate < 1 :=
  cif_integrate_unit_invariant [((1:ℚ)/2, [1]), (3/4, [2])] ⟨0, zeroVec 1⟩ 2
    (by intro p hp; rcases List.mem_cons.mp hp with h | h
        · rw [h]; norm_num
        · simp at h; rw [h]; norm_num)
    (by intro v hv
        norm_num [cifLoop, cifStep] at hv
        rcases hv with h | h <;> rw [h] <;> norm_num)
    (by norm_num) (by norm_num)

/-- **C3**: the fire trace returned by `cif` has shape `(batch, time)` and
entry `(b, t)` is the raw accumulated integral right after adding
`alphas[b, t]` and before the reset at that step: it equals the cumulative
alpha sum up to `t` minus one unit per earlier firing (entries recorded at
earlier steps are never altered by later loop iterations — the embedding
records each appended value immutably, as the Python code does since
`torch.where` rebinds rather than mutates the appended tensor). -/
theorem cif_fire_trace_spec (hidden : List (List (List ℚ)))
    (alphas : List (List ℚ)) (threshold : ℚ) (B T b t : ℕ)
    (hB : hidden.length = B) (hBpos : 0 < B)
    (hT : ∀ r ∈ hidden, r.length = T) (hTpos : 0 < T)
    (hA : alphas.length = B) (hAW : ∀ r ∈ alphas, r.length = T)
    (hb : b < B) (ht : t < T) :
    cif hidden alphas threshold =
      some (cifEmb hidden alphas threshold,
        cifFires hidden alphas threshold) ∧
    (cifFires hidden alphas threshold).length = B ∧
    ((cifFires hidden alphas threshold).getD b []).length = T ∧
    ((cifFires hidden alphas threshold).getD b []).getD t 0 =
      ((alphas.getD b []).take (t + 1)).sum -
        ((((cifFires hidden alphas threshold).getD b []).take t).countP
          (fun v => decide (threshold ≤ v)) : ℚ) := by
  have hane : alphas.getD b [] ∈ alphas := getD_mem _ _ _ (by omega)
  have hhne : hidden.getD b [] ∈ hidden := getD_mem _ _ _ (by omega)
  have haL : (alphas.getD b []).length = T := hAW _ hane
  have hhL : (hidden.getD b []).length = T := hT _ hhne
  have hzipL : (List.zip (alphas.getD b []) (hidden.getD b [])).length = T := by
    rw [List.length_zip, haL, hhL]
    exact Nat.min_self T
  have hrow : (cifFires hidden alphas threshold).getD b [] =
      cifFiresRow threshold (cifDim hidden) (alphas.getD b [])
        (hidden.getD b []) :=
    getD_zipWith _ alphas hidden b [] [] [] (by omega) (by omega)
  refine ⟨cif_eq_some hidden alphas threshold T
      (by intro hcon; rw [hcon] at hB; simp at hB; omega) hT hTpos, ?_, ?_, ?_⟩
  · simp [cifFires, hA, hB]
  · rw [hrow]
    simp only [cifFiresRow]
    rw [cifLoop_fires_length, hzipL]
  · rw [hrow]
    simp only [cifFiresRow]
    have hgd := cifLoop_fires_getD threshold ⟨0, zeroVec (cifDim hidden)⟩
      (List.zip (alphas.getD b []) (hidden.getD b [])) t (by omega)
    rw [hgd, List.map_fst_zip _ _ (le_of_eq (by rw [haL, hhL]))]
    norm_num

/-- Witness for `cif_fire_trace_spec` at `B = 1`, `T = 2`, `b = 0`,
`t = 1` (a firing happens at step 1). -/
theorem cif_fire_trace_spec_witness :
    cif [[[1], [2]]] [[3/4, 1/2]] 1 =
      some (cifEmb [[[1], [2]]] [[3/4, 1/2]] 1,
        cifFires [[[1], [2]]] [[3/4, 1/2]] 1) ∧
    (cifFires [[[1], [2]]] [[3/4, 1/2]] 1).length = 1 ∧
    ((cifFires [[[1], [2]]] [[3/4, 1/2]] 1).getD 0 []).length = 2 ∧
    ((cifFires [[[1], [2]]] [[3/4, 1/2]] 1).getD 0 []).getD 1 0 =
      (([[((3:ℚ))/4, 1/2]].getD 0 []).take 2).sum -
        ((((cifFires [[[1], [2]]] [[3/4, 1/2]] 1).getD 0 []).take 1).countP
          (fun v => decide ((1:ℚ) ≤ v)) : ℚ) :=
  cif_fire_trace_spec [[[1], [2]]] [[3/4, 1/2]] 1 1 2 0 1 rfl (by norm_num)
    (by simp) (by norm_num) rfl (by simp) (by norm_num) (by norm_num)

/-- **C5**: for a single batch element with frames `f0, f1, f2`, alphas
`[1/2, 1/2, 1]` and threshold `1`, `cif` fires exactly at steps 1 and 2
(fire trace `[1/2, 1, 1]`) and returns the token embeddings
`(1/2)·f0 + (1/2)·f1` and `1·f2 = f2`, in that order. -/
theorem cif_half_half_one (f0 f1 f2 : List ℚ)
    (h01 : f1.length = f0.length) (h12 : f2.length = f0.length) :
    cif [[f0, f1, f2]] [[1/2, 1/2, 1]] 1 =
      some ([[vadd (smul (1/2) f0) (smul (1/2) f1), f2]],
        [[1/2, 1, 1]]) := by
  have e0 : vadd (zeroVec f0.length) (smul (1/2) f0) = smul (1/2) f0 := by
    have h := vadd_zeroVec (smul (1/2) f0)
    rwa [smul_length] at h
  have e2 : vadd (smul 0 f1) (smul 1 f2) = f2 := by
    rw [smul_one]
    exact vadd_smul_zero f1 f2 (by omega)
  norm_num [cif, cifEmb, cifFires, cifSel, cifMaxLen, cifDim, cifFiresRow,
    cifFramesRow, cifLoop, cifStep, selectFires, List.filterMap_cons, e0, e2]

/-- Witness for `cif_half_half_one` at concrete two-dimensional frames. -/
theorem cif_half_half_one_witness :
    cif [[[1, 0], [0, 1], [2, 3]]] [[1/2, 1/2, 1]] 1 =
      some ([[vadd (smul (1/2) [1, 0]) (smul (1/2) [0, 1]), [2, 3]]],
        [[1/2, 1, 1]]) :=
  cif_half_half_one [1, 0] [0, 1] [2, 3] rfl rfl

theorem selRow_length (threshold : ℚ) (d : ℕ) (ab : List ℚ)
    (hb : List (List ℚ)) :
    (selectFires threshold (cifFiresRow threshold d ab hb)
      (cifFramesRow threshold d ab hb)).length =
      (cifFiresRow threshold d ab hb).countP
        (fun v => decide (threshold ≤ v)) := by
  apply selectFires_length
  simp only [cifFiresRow, cifFramesRow, cifLoop_fires_length,
    cifLoop_frames_length]

theorem selectFires_mem_frames (threshold : ℚ) (fires : List ℚ)
    (frames : List (List ℚ)) (x : List ℚ)
    (hx : x ∈ selectFires threshold fires frames) : x ∈ frames := by
  obtain ⟨p, hp, he⟩ := List.mem_filterMap.mp hx
  by_cases hc : threshold ≤ p.1
  · rw [if_pos hc] at he
    obtain rfl : p.2 = x := by simpa using he
    exact (List.of_mem_zip hp).2
  · rw [if_neg hc] at he
    simp at he

/-- **C4**: `cif`'s token embeddings have shape
`(batch, max_fires_in_batch, hidden)`: `max_label_len` is the maximum over
the batch of the number of fire-trace positions reaching the threshold;
row `b` is exactly its selected recorded frame-history vectors (in time
order, one per firing) followed by zero vectors up to that maximum; and
every entry is a `hidden`-dimensional vector. -/
theorem cif_token_embeddings_spec (hidden : List (List (List ℚ)))
    (alphas : List (List ℚ)) (threshold : ℚ) (B T d b i : ℕ)
    (hB : hidden.length = B) (hBpos : 0 < B)
    (hT : ∀ r ∈ hidden, r.length = T) (hTpos : 0 < T)
    (hd : ∀ r ∈ hidden, ∀ v ∈ r, v.length = d)
    (hA : alphas.length = B) (hAW : ∀ r ∈ alphas, r.length = T)
    (hb : b < B) (hi : i < cifMaxLen hidden alphas threshold) :
    cif hidden alphas threshold =
      some (cifEmb hidden alphas threshold,
        cifFires hidden alphas threshold) ∧
    (cifEmb hidden alphas threshold).length = B ∧
    cifMaxLen hidden alphas threshold =
      ((cifFires hidden alphas threshold).map
        (fun fr => fr.countP (fun v => decide (threshold ≤ v)))).foldl
        Nat.max 0 ∧
    ((cifSel hidden alphas threshold).getD b []).length =
      ((cifFires hidden alphas threshold).getD b []).countP
        (fun v => decide (threshold ≤ v)) ∧
    (cifEmb hidden alphas threshold).getD b [] =
      (cifSel hidden alphas threshold).getD b [] ++
        List.replicate (cifMaxLen hidden alphas threshold -
          ((cifSel hidden alphas threshold).getD b []).length)
          (zeroVec d) ∧
    ((cifEmb hidden alphas threshold).getD b []).length =
      cifMaxLen hidden alphas threshold ∧
    (((cifEmb hidden alphas threshold).getD b []).getD i []).length = d := by
  have hdim : cifDim hidden = d := by
    cases hidden with
    | nil => rw [List.length_nil] at hB; omega
    | cons h0 hs =>
      cases h0 with
      | nil =>
        have h0T := hT [] (by simp)
        rw [List.length_nil] at h0T
        omega
      | cons v vs =>
        simpa [cifDim] using hd (v :: vs) (by simp) v (by simp)
  have hsel_len : (cifSel hidden alphas threshold).length = B := by
    simp [cifSel, hA, hB]
  have hbsel : b < (cifSel hidden alphas threshold).length := by omega
  have hselb : (cifSel hidden alphas threshold).getD b [] =
      selectFires threshold
        (cifFiresRow threshold (cifDim hidden) (alphas.getD b [])
          (hidden.getD b []))
        (cifFramesRow threshold (cifDim hidden) (alphas.getD b [])
          (hidden.getD b [])) :=
    getD_zipWith _ alphas hidden b [] [] [] (by omega) (by omega)
  have hfiresb : (cifFires hidden alphas threshold).getD b [] =
      cifFiresRow threshold (cifDim hidden) (alphas.getD b [])
        (hidden.getD b []) :=
    getD_zipWith _ alphas hidden b [] [] [] (by omega) (by omega)
  have hfuneq : (fun ab hb0 =>
      (selectFires threshold (cifFiresRow threshold (cifDim hidden) ab hb0)
        (cifFramesRow threshold (cifDim hidden) ab hb0)).length) =
      (fun ab hb0 => (cifFiresRow threshold (cifDim hidden) ab hb0).countP
        (fun v => decide (threshold ≤ v))) := by
    funext ab hb0
    exact selRow_length threshold (cifDim hidden) ab hb0
  have hmapeq : (cifSel hidden alphas threshold).map List.length =
      (cifFires hidden alphas threshold).map
        (fun fr => fr.countP (fun v => decide (threshold ≤ v))) := by
    simp only [cifSel, cifFires, List.map_zipWith]
    rw [hfuneq]
  have hmax_eq : cifMaxLen hidden alphas threshold =
      ((cifFires hidden alphas threshold).map
        (fun fr => fr.countP (fun v => decide (threshold ≤ v)))).foldl
        Nat.max 0 := by
    rw [cifMaxLen, hmapeq]
  have hlen_count : ((cifSel hidden alphas threshold).getD b []).length =
      ((cifFires hidden alphas threshold).getD b []).countP
        (fun v => decide (threshold ≤ v)) := by
    rw [hselb, hfiresb]
    exact selRow_length threshold (cifDim hidden) _ _
  have hselb_le : ((cifSel hidden alphas threshold).getD b []).length ≤
      cifMaxLen hidden alphas threshold := by
    apply foldl_max_le_of_mem
    have hgd : ((cifSel hidden alphas threshold).getD b []).length =
        ((cifSel hidden alphas threshold).map List.length).getD b
          (List.length []) :=
      (getD_map List.length _ b [] hbsel).symm
    rw [hgd]
    exact getD_mem _ _ _ (by simpa using hbsel)
  have hblen : b < (cifEmb hidden alphas threshold).length := by
    simp only [cifEmb, List.length_map]
    omega
  have hembb : (cifEmb hidden alphas threshold).getD b [] =
      (cifSel hidden alphas threshold).getD b [] ++
        List.replicate (cifMaxLen hidden alphas threshold -
          ((cifSel hidden alphas threshold).getD b []).length)
          (zeroVec d) := by
    rw [getD_eq_getElem _ _ _ hblen]
    simp only [cifEmb, List.getElem_map]
    rw [← getD_eq_getElem _ _ [] hbsel, hdim]
  have hrowlen : ((cifEmb hidden alphas threshold).getD b []).length =
      cifMaxLen hidden alphas threshold := by
    rw [hembb, List.length_append, List.length_replicate]
    omega
  refine ⟨cif_eq_some hidden alphas threshold T
      (by intro hcon; rw [hcon, List.length_nil] at hB; omega) hT hTpos,
    by simp only [cifEmb, List.length_map]; omega,
    hmax_eq, hlen_count, hembb, hrowlen, ?_⟩
  rw [hembb]
  rcases Nat.lt_or_ge i ((cifSel hidden alphas threshold).getD b []).length
    with hlt | hge
  · rw [getD_append_left _ _ _ _ hlt]
    set x := ((cifSel hidden alphas threshold).getD b []).getD i [] with hx
    have hmem : x ∈ (cifSel hidden alphas threshold).getD b [] :=
      getD_mem _ _ _ hlt
    rw [hselb] at hmem
    have hfr := selectFires_mem_frames _ _ _ _ hmem
    simp only [cifFramesRow] at hfr
    refine cifLoop_frames_dims threshold ⟨0, zeroVec (cifDim hidden)⟩ _ d
      ?_ ?_ _ hfr
    · simp [zeroVec, hdim]
    · intro p hp
      exact hd _ (getD_mem hidden b [] (by omega)) p.2 (List.of_mem_zip hp).2
  · rw [show i = ((cifSel hidden alphas threshold).getD b []).length +
        (i - ((cifSel hidden alphas threshold).getD b []).length) from by
        omega,
      getD_append_right, getD_replicate _ _ _ _ (by omega)]
    simp [zeroVec]

/-- Witness for `cif_token_embeddings_spec` at `B = 1`, `T = 2`, `d = 1`,
`b = 0`, `i = 0` (both steps fire). -/
theorem cif_token_embeddings_spec_witness :
    cif [[[1], [2]]] [[1, 1]] 1 =
      some (cifEmb [[[1], [2]]] [[1, 1]] 1,
        cifFires [[[1], [2]]] [[1, 1]] 1) ∧
    (cifEmb [[[1], [2]]] [[1, 1]] 1).length = 1 ∧
    cifMaxLen [[[1], [2]]] [[1, 1]] 1 =
      ((cifFires [[[1], [2]]] [[1, 1]] 1).map
        (fun fr => fr.countP (fun v => decide ((1:ℚ) ≤ v)))).foldl
        Nat.max 0 ∧
    ((cifSel [[[1], [2]]] [[1, 1]] 1).getD 0 []).length =
      ((cifFires [[[1], [2]]] [[1, 1]] 1).getD 0 []).countP
        (fun v => decide ((1:ℚ) ≤ v)) ∧
    (cifEmb [[[1], [2]]] [[1, 1]] 1).getD 0 [] =
      (cifSel [[[1], [2]]] [[1, 1]] 1).getD 0 [] ++
        List.replicate (cifMaxLen [[[1], [2]]] [[1, 1]] 1 -
          ((cifSel [[[1], [2]]] [[1, 1]] 1).getD 0 []).length)
          (zeroVec 1) ∧
    ((cifEmb [[[1], [2]]] [[1, 1]] 1).getD 0 []).length =
      cifMaxLen [[[1], [2]]] [[1, 1]] 1 ∧
    (((cifEmb [[[1], [2]]] [[1, 1]] 1).getD 0 []).getD 0 []).length = 1 :=
  cif_token_embeddings_spec [[[1], [2]]] [[1, 1]] 1 1 2 1 0 0 rfl
    (by norm_num) (by simp) (by norm_num) (by simp) rfl (by simp)
    (by norm_num)
    (by norm_num [cifMaxLen, cifSel, cifDim, cifFiresRow, cifFramesRow,
      cifLoop, cifStep, selectFires, List.filterMap_cons, zeroVec, vadd,
      smul])

/-! ## Punctuation model scorer (espnet_model.py) -/

/-- Result of `ESPnetPunctuationModel.nll`: in training mode a
`(batch, length)` matrix of per-position losses, in evaluation mode a flat
vector (the repeated F1 score). -/
inductive NllOut where
  | mat : List (List ℚ) → NllOut
  | vec : List ℚ → NllOut
deriving DecidableEq

/-- `make_pad_mask(lengths, maxlen)`: shape `(batch, maxlen)`, `true` at
padding positions (index at or beyond the row's length). -/
def make_pad_mask (lengths : List ℕ) (maxlen : ℕ) : List (List Bool) :=
  lengths.map (fun len => (List.range maxlen).map (fun j => decide (len ≤ j)))

/-- In-place `masked_fill_(mask, 0.0)` on a flat tensor.  PyTorch requires
the mask to be broadcastable to the tensor's shape; at the call sites in
`nll` both are one-dimensional with `batch * maxlen` resp. `batch * length`
entries, so the operation succeeds only when the two sizes agree (the
general size-1 broadcast case never applies there) and raises otherwise,
embedded as `none`. -/
def masked_fill (v : List ℚ) (mask : List Bool) : Option (List ℚ) :=
  if v.length = mask.length then
    some (List.zipWith (fun x m => if m then 0 else x) v mask)
  else none

/-- `tensor.view(b, -1)`: succeeds when `b` divides the element count,
splitting the flat list into `b` equal rows. -/
def reshapeRows (v : List ℚ) (b : ℕ) : Option (List (List ℚ)) :=
  if b = 0 then none
  else if v.length % b = 0 then
    some ((List.range b).map
      (fun i => (v.drop (i * (v.length / b))).take (v.length / b)))
  else none

/-- `y.topk(1, dim=1)` per flattened position: index of the (first)
maximum logit. -/
def argmaxIdx (l : List ℚ) : ℕ :=
  (List.range l.length).foldl
    (fun best j => if l.getD best 0 < l.getD j 0 then j else best) 0

/-- `sklearn.metrics.f1_score(targets, preds, average='micro')` for
single-label multiclass inputs: the micro-averaged F1 equals the match
ratio (total true positives over total predictions). -/
def microF1 (targets preds : List ℤ) : ℚ :=
  if targets.length = 0 then 0
  else ((List.zip targets preds).countP (fun p => decide (p.1 = p.2)) : ℚ) /
    (targets.length : ℚ)

/-- `ESPnetPunctuationModel.nll` (espnet_model.py lines 27-86).
`ce` is the per-position cross-entropy kernel `-log softmax(logits)[target]`
applied by `F.cross_entropy` to positions whose target differs from
`ignore_id` (positions with the ignored target contribute `0`); `model` is
the injected `punc_model` (first component of its output pair).  Both are
opaque parameters.  In evaluation mode (`training = false`) the result is
the micro-F1 of the argmax predictions repeated `text_lengths.sum()` times;
in training mode the flat loss is masked via `make_pad_mask` — with
`maxlen = max_length + 1` when an explicit `max_length` is passed — and
reshaped to `(batch, -1)`.  Shape mismatches raise, embedded as `none`. -/
def nll (ce : List ℚ → ℤ → ℚ)
    (model : List (List ℤ) → List ℕ → List (List (List ℚ)))
    (ignore_id : ℤ) (training : Bool)
    (text punc : List (List ℤ)) (text_lengths : List ℕ)
    (max_length : Option ℕ) : Option (NllOut × List ℕ) :=
  let batch_size := text.length
  let sliceLen := match max_length with
    | none => text_lengths.foldl Nat.max 0
    | some m => m
  let text2 := text.map (List.take sliceLen)
  let punc2 := punc.map (List.take sliceLen)
  let y := model text2 text_lengths
  if training = false then
    let yFlat := y.flatten
    let puncFlat := punc2.flatten
    if yFlat.length = puncFlat.length then
      let preds := yFlat.map (fun row => (argmaxIdx row : ℤ))
      some (NllOut.vec
        (List.replicate text_lengths.sum (microF1 puncFlat preds)),
        text_lengths)
    else none
  else
    let yFlat := y.flatten
    let puncFlat := punc2.flatten
    if yFlat.length = puncFlat.length then
      let nllFlat := List.zipWith
        (fun logits target =>
          if target = ignore_id then 0 else ce logits target)
        yFlat puncFlat
      let maskRows := match max_length with
        | none => make_pad_mask text_lengths (text_lengths.foldl Nat.max 0)
        | some m => make_pad_mask text_lengths (m + 1)
      (masked_fill nllFlat maskRows.flatten).bind (fun filled =>
        (reshapeRows filled batch_size).map
          (fun rows => (NllOut.mat rows, text_lengths)))
    else none

/-- `nll.size(0)`: row count of a matrix result, length of a flat one. -/
def nllSize0 : NllOut → ℕ
  | NllOut.mat rows => rows.length
  | NllOut.vec v => v.length

/-- Collect per-chunk results, failing if any chunk failed. -/
def seqOptions : List (Option (NllOut × List ℕ)) →
    Option (List (NllOut × List ℕ))
  | [] => some []
  | none :: _ => none
  | some a :: rest => (seqOptions rest).map (fun l => a :: l)

/-- `torch.cat` over matrix chunks of a common row width `w`. -/
def catMatW (w : ℕ) : List NllOut → Option (List (List ℚ))
  | [] => some []
  | NllOut.mat rows :: rest =>
    if rows.all (fun r => r.length = w) then
      (catMatW w rest).map (fun l => rows ++ l)
    else none
  | NllOut.vec _ :: _ => none

/-- `torch.cat` over flat chunks. -/
def catVec : List NllOut → Option (List ℚ)
  | [] => some []
  | NllOut.vec v :: rest => (catVec rest).map (fun l => v ++ l)
  | NllOut.mat _ :: _ => none

/-- `torch.cat(nlls)`: all chunks must share the constructor (and width,
for matrices); the empty list raises. -/
def catOuts (l : List NllOut) : Option NllOut :=
  match l with
  | [] => none
  | NllOut.mat rows :: _ => (catMatW ((rows.headD []).length) l).map NllOut.mat
  | NllOut.vec _ :: _ => (catVec l).map NllOut.vec

/-- `ESPnetPunctuationModel.batchify_nll` (espnet_model.py lines 88-131):
single `nll` pass when the batch fits into one chunk, otherwise chunked
`nll` calls sharing `max_length = text_lengths.max()` concatenated along
the batch dimension; the two final `assert` statements are embedded as
checks whose failure yields `none`.  A zero chunk size makes the Python
`while` loop diverge on a nonempty batch; that case is embedded as
`none`. -/
def batchify_nll (ce : List ℚ → ℤ → ℚ)
    (model : List (List ℤ) → List ℕ → List (List (List ℚ)))
    (ignore_id : ℤ) (training : Bool)
    (text punc : List (List ℤ)) (text_lengths : List ℕ)
    (batch_size : ℕ) : Option (NllOut × List ℕ) :=
  let total := text.length
  if total ≤ batch_size then
    match nll ce model ignore_id training text punc text_lengths none with
    | none => none
    | some (out, ls) =>
      if nllSize0 out = total ∧ ls.length = total then some (out, ls)
      else none
  else
    if batch_size = 0 then none
    else
      let max_length := text_lengths.foldl Nat.max 0
      let nChunks := (total + batch_size - 1) / batch_size
      match seqOptions ((List.range nChunks).map (fun i =>
        nll ce model ignore_id training
          ((text.drop (i * batch_size)).take batch_size)
          ((punc.drop (i * batch_size)).take batch_size)
          ((text_lengths.drop (i * batch_size)).take batch_size)
          (some max_length))) with
      | none => none
      | some results =>
        match catOuts (results.map Prod.fst) with
        | none => none
        | some out =>
          let lens := (results.map Prod.snd).flatten
          if nllSize0 out = total ∧ lens.length = total then some (out, lens)
          else none

/-- **C7** (code bug): the claim says `nll` zeroes the padding positions
also when an explicit `max_length` is supplied.  In that branch the code
builds the pad mask with `maxlen = max_length + 1` (a leftover of the
commented-out sos/eos preparation that would have lengthened the sequences
by one), so the flat mask has `batch` more entries than the loss vector and
the in-place `masked_fill_` raises a size mismatch instead of returning.
Evaluated at `batch = 1`, `text = [[5]]`, `punc = [[1]]`, lengths `[1]`,
`max_length = 1`, with concrete opaque kernels: the call fails. -/
theorem nll_explicit_max_length_fails :
    nll (fun _ _ => 1) (fun t _ => t.map (fun r => r.map (fun _ => [(1:ℚ)])))
      0 true [[5]] [[1]] [1] (some 1) = none := rfl

/-- **C6** (code bug): the claim says the chunked `batchify_nll` result is
numerically identical to the single-pass one for every chunk size.  As soon
as more than one chunk is needed, every chunk calls `nll` with an explicit
`max_length`, which hits the `maxlen = max_length + 1` mask-size bug of
`nll` (see `nll_explicit_max_length_fails`), so the whole chunked path
raises instead of returning anything.  Evaluated at a two-element batch
with chunk size 1 in training mode with concrete opaque kernels: the call
fails. -/
theorem batchify_nll_chunked_fails :
    batchify_nll (fun _ _ => 1)
      (fun t _ => t.map (fun r => r.map (fun _ => [(1:ℚ)])))
      0 true [[5], [6]] [[1], [2]] [1, 1] 1 = none := rfl

theorem getD_map_of_lt {α β : Type} (f : α → β) (l : List α) (b : ℕ)
    (hb : b < l.length) (d : β) (d' : α) :
    (l.map f).getD b d = f (l.getD b d') := by
  rw [getD_eq_getElem _ _ _ (by simpa using hb), List.getElem_map,
    getD_eq_getElem _ _ _ hb]

/-- Specification-level value of one training-mode `nll` output position:
`0` on padding (at or beyond the row's length), `0` on positions whose
target is the ignored label, and the cross-entropy kernel elsewhere. -/
def nllEntry (ce : List ℚ → ℤ → ℚ) (ignore_id : ℤ)
    (y : List (List (List ℚ))) (punc : List (List ℤ)) (lengths : List ℕ)
    (b j : ℕ) : ℚ :=
  if lengths.getD b 0 ≤ j then 0
  else if (punc.getD b []).getD j 0 = ignore_id then 0
  else ce ((y.getD b []).getD j []) ((punc.getD b []).getD j 0)

/-- Training-mode `nll` without an explicit `max_length` computes exactly
the `(batch, L)` matrix of `nllEntry` values, where `L` is the maximum
label length. -/
theorem nll_train_matrix (ce : List ℚ → ℤ → ℚ)
    (model : List (List ℤ) → List ℕ → List (List (List ℚ)))
    (ignore_id : ℤ) (text punc : List (List ℤ)) (lengths : List ℕ)
    (B L : ℕ)
    (hB : text.length = B) (hBpos : 0 < B)
    (hlen : lengths.length = B) (hpB : punc.length = B)
    (hL : L = lengths.foldl Nat.max 0)
    (hyB : (model (text.map (List.take L)) lengths).length = B)
    (hyW : ∀ r ∈ model (text.map (List.take L)) lengths, r.length = L)
    (hpW : ∀ r ∈ punc, L ≤ r.length) :
    nll ce model ignore_id true text punc lengths none =
      some (NllOut.mat ((List.range B).map (fun b =>
        (List.range L).map (fun j =>
          nllEntry ce ignore_id (model (text.map (List.take L)) lengths)
            punc lengths b j))), lengths) := by
  have hp2W : ∀ r ∈ punc.map (List.take L), r.length = L := by
    intro r hr
    obtain ⟨r', hr', hre⟩ := List.mem_map.mp hr
    rw [← hre, List.length_take]
    exact Nat.min_eq_left (hpW r' hr')
  have hyFlat : (model (text.map (List.take L)) lengths).flatten.length =
      B * L := by
    rw [flatten_length_uniform _ L hyW, hyB]
  have hpFlat : (punc.map (List.take L)).flatten.length = B * L := by
    rw [flatten_length_uniform _ L hp2W, List.length_map, hpB]
  have hmaskW : ∀ r ∈ make_pad_mask lengths L, r.length = L := by
    intro r hr
    obtain ⟨len, _, hre⟩ := List.mem_map.mp hr
    rw [← hre, List.length_map, List.length_range]
  have hmaskFlat : (make_pad_mask lengths L).flatten.length = B * L := by
    rw [flatten_length_uniform _ L hmaskW, make_pad_mask, List.length_map,
      hlen]
  have hzipLen : (List.zipWith
      (fun logits target =>
        if target = ignore_id then 0 else ce logits target)
      (model (text.map (List.take L)) lengths).flatten
      (punc.map (List.take L)).flatten).length = B * L := by
    rw [List.length_zipWith, hyFlat, hpFlat, Nat.min_self]
  have hfilledLen : (List.zipWith (fun x m => if m then 0 else x)
      (List.zipWith
        (fun logits target =>
          if target = ignore_id then 0 else ce logits target)
        (model (text.map (List.take L)) lengths).flatten
        (punc.map (List.take L)).flatten)
      (make_pad_mask lengths L).flatten).length = B * L := by
    rw [List.length_zipWith, hzipLen, hmaskFlat, Nat.min_self]
  simp only [nll, ← hL, Bool.true_eq_false, if_false]
  rw [if_pos (hyFlat.trans hpFlat.symm)]
  rw [masked_fill, if_pos (hzipLen.trans hmaskFlat.symm)]
  simp only [Option.some_bind]
  rw [reshapeRows, if_neg (show ¬ text.length = 0 by omega)]
  rw [hfilledLen, hB, if_pos (Nat.mul_mod_right B L)]
  have hdiv : B * L / B = L := Nat.mul_div_cancel_left L hBpos
  rw [hdiv]
  simp only [Option.map_some', Option.some.injEq, Prod.mk.injEq, and_true,
    NllOut.mat.injEq]
  apply List.map_congr_left
  intro b hb
  have hbB : b < B := List.mem_range.mp hb
  apply List.ext_getElem
  · rw [List.length_take, List.length_drop, hfilledLen, List.length_map,
      List.length_range]
    have h1 : (b + 1) * L ≤ B * L := Nat.mul_le_mul_right L (by omega)
    have h2 : (b + 1) * L = b * L + L := by ring
    omega
  · intro j hj1 hj2
    have hjL : j < L := by simpa using hj2
    have hidx : b * L + j < B * L := by
      have h1 : (b + 1) * L ≤ B * L := Nat.mul_le_mul_right L (by omega)
      have h2 : (b + 1) * L = b * L + L := by ring
      omega
    rw [← getD_eq_getElem _ _ 0 hj1, ← getD_eq_getElem _ _ 0 hj2]
    rw [getD_take _ _ _ _ hjL, getD_drop,
      getD_zipWith _ _ _ _ 0 false 0 (by omega) (by omega),
      getD_zipWith _ _ _ _ [] 0 0 (by omega) (by omega),
      flatten_getD_uniform _ L b j [] hyW (by omega) hjL,
      flatten_getD_uniform _ L b j 0 hp2W (by rw [List.length_map]; omega)
        hjL,
      flatten_getD_uniform _ L b j false hmaskW
        (by rw [make_pad_mask, List.length_map]; omega) hjL]
    rw [getD_map_of_lt _ punc b (by omega) _ [],
      getD_take _ _ _ _ hjL,
      make_pad_mask,
      getD_map_of_lt _ lengths b (by omega) _ 0,
      getD_map_of_lt _ (List.range L) j (by simpa using hjL) _ 0,
      getD_range _ _ _ hjL,
      getD_map_of_lt _ (List.range L) j (by simpa using hjL) _ 0,
      getD_range _ _ _ hjL]
    simp only [nllEntry, decide_eq_true_eq]

/-- **C10**: in training mode, every position whose target punctuation
label equals `ignore_id` contributes exactly `0` to the per-position NLL
output, even when the position lies within the sequence's valid length
(`F.cross_entropy(..., ignore_index=self.ignore_id)` zeroes it before the
padding mask is applied). -/
theorem nll_ignore_id_zero (ce : List ℚ → ℤ → ℚ)
    (model : List (List ℤ) → List ℕ → List (List (List ℚ)))
    (ignore_id : ℤ) (text punc : List (List ℤ)) (lengths : List ℕ)
    (B L b j : ℕ)
    (hB : text.length = B) (hBpos : 0 < B)
    (hlen : lengths.length = B) (hpB : punc.length = B)
    (hL : L = lengths.foldl Nat.max 0)
    (hyB : (model (text.map (List.take L)) lengths).length = B)
    (hyW : ∀ r ∈ model (text.map (List.take L)) lengths, r.length = L)
    (hpW : ∀ r ∈ punc, L ≤ r.length)
    (hb : b < B) (hj : j < lengths.getD b 0)
    (hig : (punc.getD b []).getD j 0 = ignore_id) :
    nll ce model ignore_id true text punc lengths none =
      some (NllOut.mat ((List.range B).map (fun b =>
        (List.range L).map (fun j =>
          nllEntry ce ignore_id (model (text.map (List.take L)) lengths)
            punc lengths b j))), lengths) ∧
    ((((List.range B).map (fun b =>
        (List.range L).map (fun j =>
          nllEntry ce ignore_id (model (text.map (List.take L)) lengths)
            punc lengths b j))).getD b []).getD j 0) = 0 := by
  have hjL : j < L := by
    have hmem : lengths.getD b 0 ∈ lengths := getD_mem _ _ _ (by omega)
    have hle := foldl_max_le_of_mem lengths 0 _ hmem
    omega
  refine ⟨nll_train_matrix ce model ignore_id text punc lengths B L hB hBpos
    hlen hpB hL hyB hyW hpW, ?_⟩
  rw [getD_map_of_lt _ (List.range B) b (by simpa using hb) _ 0,
    getD_range _ _ _ hb,
    getD_map_of_lt _ (List.range L) j (by simpa using hjL) _ 0,
    getD_range _ _ _ hjL]
  rw [nllEntry, if_neg (by omega), if_pos hig]

/-- Witness for `nll_ignore_id_zero` at a one-element batch whose first
in-range target is the ignored label `0`, with concrete opaque kernels
(the cross-entropy kernel is the constant `7`, so the zero genuinely comes
from the ignore handling). -/
theorem nll_ignore_id_zero_witness :
    nll (fun _ _ => 7)
      (fun t _ => t.map (fun r => r.map (fun _ => [(1:ℚ)])))
      0 true [[3, 4]] [[0, 2]] [2] none =
      some (NllOut.mat ((List.range 1).map (fun b =>
        (List.range 2).map (fun j =>
          nllEntry (fun _ _ => 7) 0
            ((fun (t : List (List ℤ)) (_ : List ℕ) =>
              t.map (fun r => r.map (fun _ => [(1:ℚ)])))
              ([[3, 4]].map (List.take 2)) [2])
            [[0, 2]] [2] b j))), [2]) ∧
    ((((List.range 1).map (fun b =>
        (List.range 2).map (fun j =>
          nllEntry (fun _ _ => 7) 0
            ((fun (t : List (List ℤ)) (_ : List ℕ) =>
              t.map (fun r => r.map (fun _ => [(1:ℚ)])))
              ([[3, 4]].map (List.take 2)) [2])
            [[0, 2]] [2] b j))).getD 0 []).getD 0 0) = 0 :=
  nll_ignore_id_zero (fun _ _ => 7)
    (fun t _ => t.map (fun r => r.map (fun _ => [(1:ℚ)])))
    0 [[3, 4]] [[0, 2]] [2] 1 2 0 0 rfl (by norm_num) rfl rfl rfl rfl
    (by simp) (by simp) (by norm_num) (by norm_num) rfl

/-- **C8**: with the training flag false, `nll` does not return per-token
losses: it returns a flat vector of length `text_lengths.sum()` all of
whose entries are the single micro-averaged F1 score of the argmax
predictions against the (flattened, sliced) targets, paired with
`text_lengths`; with the training flag true it returns the per-position
cross-entropy matrix instead (`nllEntry` values). -/
theorem nll_eval_mode_f1 (ce : List ℚ → ℤ → ℚ)
    (model : List (List ℤ) → List ℕ → List (List (List ℚ)))
    (ignore_id : ℤ) (text punc : List (List ℤ)) (lengths : List ℕ)
    (B L : ℕ)
    (hB : text.length = B) (hBpos : 0 < B)
    (hlen : lengths.length = B) (hpB : punc.length = B)
    (hL : L = lengths.foldl Nat.max 0)
    (hyB : (model (text.map (List.take L)) lengths).length = B)
    (hyW : ∀ r ∈ model (text.map (List.take L)) lengths, r.length = L)
    (hpW : ∀ r ∈ punc, L ≤ r.length) :
    nll ce model ignore_id false text punc lengths none =
      some (NllOut.vec (List.replicate lengths.sum
        (microF1 (punc.map (List.take L)).flatten
          ((model (text.map (List.take L)) lengths).flatten.map
            (fun row => (argmaxIdx row : ℤ))))), lengths) ∧
    (List.replicate lengths.sum
        (microF1 (punc.map (List.take L)).flatten
          ((model (text.map (List.take L)) lengths).flatten.map
            (fun row => (argmaxIdx row : ℤ))))).length = lengths.sum ∧
    nll ce model ignore_id true text punc lengths none =
      some (NllOut.mat ((List.range B).map (fun b =>
        (List.range L).map (fun j =>
          nllEntry ce ignore_id (model (text.map (List.take L)) lengths)
            punc lengths b j))), lengths) := by
  have hp2W : ∀ r ∈ punc.map (List.take L), r.length = L := by
    intro r hr
    obtain ⟨r', hr', hre⟩ := List.mem_map.mp hr
    rw [← hre, List.length_take]
    exact Nat.min_eq_left (hpW r' hr')
  have hyFlat : (model (text.map (List.take L)) lengths).flatten.length =
      B * L := by
    rw [flatten_length_uniform _ L hyW, hyB]
  have hpFlat : (punc.map (List.take L)).flatten.length = B * L := by
    rw [flatten_length_uniform _ L hp2W, List.length_map, hpB]
  refine ⟨?_, List.length_replicate _ _,
    nll_train_matrix ce model ignore_id text punc lengths B L hB hBpos hlen
      hpB hL hyB hyW hpW⟩
  simp only [nll, ← hL]
  rw [if_pos trivial, if_pos (hyFlat.trans hpFlat.symm)]

/-- Witness for `nll_eval_mode_f1` on a one-element batch of two labeled
positions, with concrete opaque kernels. -/
theorem nll_eval_mode_f1_witness :
    nll (fun _ _ => 7)
      (fun t _ => t.map (fun r => r.map (fun _ => [(1:ℚ)])))
      0 false [[3, 4]] [[1, 2]] [2] none =
      some (NllOut.vec (List.replicate ([2] : List ℕ).sum
        (microF1 ([[1, 2]].map (List.take 2)).flatten
          ((((fun (t : List (List ℤ)) (_ : List ℕ) =>
              t.map (fun r => r.map (fun _ => [(1:ℚ)])))
            ([[3, 4]].map (List.take 2)) [2]).flatten).map
            (fun row => (argmaxIdx row : ℤ))))), [2]) ∧
    (List.replicate ([2] : List ℕ).sum
        (microF1 ([[1, 2]].map (List.take 2)).flatten
          ((((fun (t : List (List ℤ)) (_ : List ℕ) =>
              t.map (fun r => r.map (fun _ => [(1:ℚ)])))
            ([[3, 4]].map (List.take 2)) [2]).flatten).map
            (fun row => (argmaxIdx row : ℤ))))).length = ([2] : List ℕ).sum ∧
    nll (fun _ _ => 7)
      (fun t _ => t.map (fun r => r.map (fun _ => [(1:ℚ)])))
      0 true [[3, 4]] [[1, 2]] [2] none =
      some (NllOut.mat ((List.range 1).map (fun b =>
        (List.range 2).map (fun j =>
          nllEntry (fun _ _ => 7) 0
            ((fun (t : List (List ℤ)) (_ : List ℕ) =>
              t.map (fun r => r.map (fun _ => [(1:ℚ)])))
              ([[3, 4]].map (List.take 2)) [2])
            [[1, 2]] [2] b j))), [2]) :=
  nll_eval_mode_f1 (fun _ _ => 7)
    (fun t _ => t.map (fun r => r.map (fun _ => [(1:ℚ)])))
    0 [[3, 4]] [[1, 2]] [2] 1 2 rfl (by norm_num) rfl rfl rfl rfl
    (by simp) (by simp)
